import Mathlib

/-!
# Verification of the neps grammar-guided search-space core

Shallow embedding of the Python source under `src/` (the CFG sampling engine
in `comprehensive_nas/search_spaces/graph_grammar/cfg.py`, the numerical
hyperparameters in `comprehensive_nas/search_spaces/numerical/float.py` and
`neps/search_spaces/numerical/categorical.py`, and the search-space
composition in `neps/search_spaces/search_space.py`).

Python strings are modelled as `List Char`; Python floats as exact rationals
`ℚ`; the process-wide pseudo-random generators as explicit streams of draws
(`List ℚ`) threaded through the functions that consume them; Python
exceptions as `Except`/`Option` results; Python dictionaries
(`defaultdict(int)` and the depth-information dict) as association lists.
-/

namespace Neps

/-! ## Python indexing and the `choice` helper (cfg.py, bottom of file) -/

/-- Python list indexing `l[i]`: nonnegative indices from the front,
negative indices from the back (`l[-1]` is the last element); out-of-range
access raises `IndexError`, modelled as `none`. -/
def pyIndex {α : Type} (l : List α) (i : Int) : Option α :=
  if 0 ≤ i then l.get? i.toNat
  else if (-i).toNat ≤ l.length then l.get? (l.length - (-i).toNat)
  else none

/-- The index-selection loop of `choice` in cfg.py: `cum` accumulates the
probabilities; the first index `i` with `x < cum` is selected; if no index
triggers, the selection stays `-1` (Python's initial value). -/
def choiceIdxGo (probs : List ℚ) (x : ℚ) (cum : ℚ) (i : Int) : Int :=
  match probs with
  | [] => -1
  | p :: rest =>
    let cum' := cum + p
    if x < cum' then i else choiceIdxGo rest x cum' (i + 1)

/-- The function `choice(options, probs)` from cfg.py, with the uniform draw
`x = np.random.rand()` made explicit.  When `probs is None` the uniform
probabilities `[1/n] * n` are used.  Returns `none` exactly when the final
`options[choice]` would raise `IndexError`. -/
def choice {α : Type} (options : List α) (probs : Option (List ℚ)) (x : ℚ) :
    Option α :=
  let ps := match probs with
    | none => List.replicate options.length (1 / (options.length : ℚ))
    | some ps => ps
  pyIndex options (choiceIdxGo ps x 0 0)

/-! ### Lemmas about the selection loop -/

/-- The selection loop either leaves the index at `-1` or selects an offset
`k` within the probability list. -/
lemma choiceIdxGo_cases (probs : List ℚ) (x : ℚ) :
    ∀ cum : ℚ, ∀ i : Int, choiceIdxGo probs x cum i = -1 ∨
      ∃ k : Nat, k < probs.length ∧ choiceIdxGo probs x cum i = i + (k : Int) := by
  induction probs with
  | nil => intro cum i; left; rfl
  | cons p rest ih =>
    intro cum i
    by_cases hx : x < cum + p
    · right
      exact ⟨0, Nat.succ_pos _, by simp [choiceIdxGo, hx]⟩
    · rcases ih (cum + p) (i + 1) with h | ⟨k, hk, heq⟩
      · left; simpa [choiceIdxGo, hx] using h
      · right
        refine ⟨k + 1, by simpa using Nat.succ_lt_succ hk, ?_⟩
        rw [show choiceIdxGo (p :: rest) x cum i = choiceIdxGo rest x (cum + p) (i + 1) by
          simp [choiceIdxGo, hx]]
        rw [heq]; push_cast; ring

/-- If every probability is nonnegative and the draw is at least the whole
remaining mass, no index triggers and the selection stays `-1`. -/
lemma choiceIdxGo_eq_neg_one (probs : List ℚ) (x : ℚ)
    (hnn : ∀ p ∈ probs, 0 ≤ p) :
    ∀ cum : ℚ, cum + probs.sum ≤ x → ∀ i : Int, choiceIdxGo probs x cum i = -1 := by
  induction probs with
  | nil => intro cum _ i; rfl
  | cons p rest ih =>
    intro cum hcum i
    have hrest : (0 : ℚ) ≤ rest.sum :=
      List.sum_nonneg fun q hq => hnn q (List.mem_cons_of_mem _ hq)
    have hx : ¬ x < cum + p := by
      push_neg
      calc cum + p ≤ cum + p + rest.sum := by linarith
        _ = cum + (p :: rest).sum := by simp [List.sum_cons]; ring
        _ ≤ x := hcum
    have := ih (fun q hq => hnn q (List.mem_cons_of_mem _ hq)) (cum + p)
      (by simpa [List.sum_cons, add_assoc] using hcum) (i + 1)
    simpa [choiceIdxGo, hx] using this

/-- Interval characterization of the selection loop: with nonnegative
probabilities, a draw lying in the `k`-th cumulative interval selects
offset `k`. -/
lemma choiceIdxGo_eq_of_interval (probs : List ℚ) (x : ℚ)
    (hnn : ∀ p ∈ probs, 0 ≤ p) :
    ∀ k : Nat, k < probs.length →
    ∀ cum : ℚ, cum + ((probs.take k).sum) ≤ x → x < cum + ((probs.take (k + 1)).sum) →
    ∀ i : Int, choiceIdxGo probs x cum i = i + (k : Int) := by
  induction probs with
  | nil => intro k hk; exact absurd hk (by simp)
  | cons p rest ih =>
    intro k hk cum hlow hhigh i
    match k with
    | 0 =>
      have hx : x < cum + p := by simpa [List.sum_cons] using hhigh
      simp [choiceIdxGo, hx]
    | k + 1 =>
      have htk : (0 : ℚ) ≤ (rest.take k).sum :=
        List.sum_nonneg fun q hq =>
          hnn q (List.mem_cons_of_mem _ (List.mem_of_mem_take hq))
      have hx : ¬ x < cum + p := by
        push_neg
        have : cum + p + (rest.take k).sum ≤ x := by
          simpa [List.sum_cons, add_assoc] using hlow
        linarith
      have := ih (fun q hq => hnn q (List.mem_cons_of_mem _ hq)) k
        (by simpa using Nat.lt_of_succ_lt_succ hk) (cum + p)
        (by simpa [List.sum_cons, add_assoc] using hlow)
        (by simpa [List.sum_cons, add_assoc] using hhigh) (i + 1)
      rw [show choiceIdxGo (p :: rest) x cum i = choiceIdxGo rest x (cum + p) (i + 1) by
        simp [choiceIdxGo, hx]]
      rw [this]; push_cast; ring

/-- Python `l[-1]` on a nonempty list is its last element. -/
lemma pyIndex_neg_one {α : Type} (l : List α) (h : l ≠ []) :
    pyIndex l (-1) = some (l.getLast h) := by
  have hlen : 0 < l.length := List.length_pos.mpr h
  have h1 : (1 : Nat) ≤ l.length := hlen
  rw [pyIndex]
  simp only [if_neg (by norm_num : ¬ (0:Int) ≤ -1)]
  rw [if_pos (by simpa using h1)]
  have hlt : l.length - 1 < l.length := by omega
  have e : ((-(-1 : Int))).toNat = 1 := rfl
  rw [e, List.get?_eq_get hlt, List.getLast_eq_get]

/-- Python `l[k]` for an in-range natural index. -/
lemma pyIndex_ofNat {α : Type} (l : List α) (k : Nat) :
    pyIndex l (k : Int) = l.get? k := by
  simp [pyIndex]

/-- Applying `choice` with an explicit probability list selects the option whose
cumulative interval contains the draw. -/
lemma choice_some_eq {α : Type} (options : List α) (probs : List ℚ) (x : ℚ)
    (hnn : ∀ p ∈ probs, 0 ≤ p) (k : Nat) (hk : k < probs.length)
    (hlow : (probs.take k).sum ≤ x) (hhigh : x < (probs.take (k + 1)).sum) :
    choice options (some probs) x = options.get? k := by
  rw [choice]
  have := choiceIdxGo_eq_of_interval probs x hnn k hk 0 (by simpa using hlow)
    (by simpa using hhigh) 0
  simp only [this, zero_add]
  exact pyIndex_ofNat options k

/-- Applying `choice` with `probs = None` (uniform probabilities) selects the option
whose uniform interval `[k/n, (k+1)/n)` contains the draw. -/
lemma choice_none_eq {α : Type} (options : List α) (x : ℚ) (k : Nat)
    (hk : k < options.length)
    (hlow : (k : ℚ) / (options.length : ℚ) ≤ x)
    (hhigh : x < ((k : ℚ) + 1) / (options.length : ℚ)) :
    choice options none x = options.get? k := by
  have hn : (0 : ℚ) < (options.length : ℚ) := by
    have : 0 < options.length := lt_of_le_of_lt (Nat.zero_le k) hk
    exact_mod_cast this
  have hnn : ∀ p ∈ List.replicate options.length (1 / (options.length : ℚ)), 0 ≤ p := by
    intro p hp
    rw [List.eq_of_mem_replicate hp]
    positivity
  have htake : ∀ m, m ≤ options.length →
      ((List.replicate options.length (1 / (options.length : ℚ))).take m).sum
        = (m : ℚ) / options.length := by
    intro m hm
    rw [List.take_replicate, List.sum_replicate, min_eq_left hm, nsmul_eq_mul]
    ring
  have hklen : k < (List.replicate options.length (1 / (options.length : ℚ))).length := by
    simpa using hk
  have h := choiceIdxGo_eq_of_interval _ x hnn k hklen 0
    (by rw [htake k hk.le]; simpa using hlow)
    (by rw [htake (k + 1) hk]; push_cast; simpa using hhigh) 0
  simp only [choice, h, zero_add]
  exact pyIndex_ofNat options k

/-- C10. For every non-empty options list and every same-length list of
nonnegative probabilities — including one whose entries sum to strictly less
than 1 — `choice` always returns an element of the options list and never
raises; when the draw is at least the cumulative probability sum, the
selection index stays `-1` and the last option is returned. -/
theorem choice_total_and_falls_back_to_last {α : Type} (options : List α)
    (probs : List ℚ) (x : ℚ) (hlen : probs.length = options.length)
    (hne : options ≠ []) (hnn : ∀ p ∈ probs, 0 ≤ p) :
    (∃ a, choice options (some probs) x = some a ∧ a ∈ options) ∧
    (probs.sum ≤ x → choice options (some probs) x = some (options.getLast hne)) := by
  constructor
  · rcases choiceIdxGo_cases probs x 0 0 with h | ⟨k, hk, heq⟩
    · refine ⟨options.getLast hne, ?_, List.getLast_mem hne⟩
      simp only [choice, h]
      exact pyIndex_neg_one options hne
    · have hk' : k < options.length := hlen ▸ hk
      refine ⟨options.get ⟨k, hk'⟩, ?_, List.get_mem options _ _⟩
      simp only [choice, heq, zero_add]
      rw [pyIndex_ofNat options k]
      exact List.get?_eq_get hk'
  · intro hsum
    have h := choiceIdxGo_eq_neg_one probs x hnn 0 (by simpa using hsum) 0
    simp only [choice, h]
    exact pyIndex_neg_one options hne

/-- Witness for C10 at a concrete input: two options, probabilities summing
to `3/5 < 1`, draw `9/10` beyond the cumulative sum, last option returned. -/
theorem choice_total_and_falls_back_to_last_witness :
    Neps.choice [1, 2] (some [3/10, 3/10]) (9/10) = some 2 := by
  have h := choice_total_and_falls_back_to_last [1, 2] [3/10, 3/10] (9/10)
    (by decide) (by decide) (by norm_num)
  have h2 := h.2 (by norm_num)
  simpa using h2

/-! ## Python exceptions -/

/-- The Python exception kinds the embedded code can raise. -/
inductive PyError where
  | valueError
  | notImplementedError
  | typeError
  | indexError
deriving DecidableEq, Repr

/-! ## FloatHyperparameter (comprehensive_nas/search_spaces/numerical/float.py)

The hyperparameter's mutable Python state relevant to the claims: the
bounds and the current value, as exact rationals.  The `log` flag only
changes how the raw sampling draw is produced (`exp` of a uniform draw in
log-space instead of a uniform draw); both branches feed the same final
clamp, so `sampleValue` takes the branch's raw draw as input. -/

structure FloatHyperparameter where
  lower : ℚ
  upper : ℚ
  value : ℚ
deriving DecidableEq, Repr

/-- The assignment in `FloatHyperparameter.sample`:
`self.value = min(self.upper, max(self.lower, value))`, with `value` the
raw (pre-clamp) random draw. -/
def FloatHyperparameter.sampleValue (hp : FloatHyperparameter) (draw : ℚ) : ℚ :=
  min hp.upper (max hp.lower draw)

/-- The value of the neighbour produced by `_get_neighbours`: the accepted
normalized Gaussian draw `nval ∈ [0, 1]`, mapped back to domain units by
`_inv_transform`. -/
def FloatHyperparameter.neighbourValue (hp : FloatHyperparameter) (nval : ℚ) : ℚ :=
  nval * (hp.upper - hp.lower) + hp.lower

/-- The method `FloatHyperparameter._transform`: `value = (value - lower) / (upper - lower)`.
(The code first raises on a NaN value; `ℚ` has no NaN, see module header.) -/
def FloatHyperparameter.transform (hp : FloatHyperparameter) : FloatHyperparameter :=
  { hp with value := (hp.value - hp.lower) / (hp.upper - hp.lower) }

/-- The method `FloatHyperparameter._inv_transform`: `value = value * (upper - lower) + lower`. -/
def FloatHyperparameter.invTransform (hp : FloatHyperparameter) : FloatHyperparameter :=
  { hp with value := hp.value * (hp.upper - hp.lower) + hp.lower }

/-- The mutation strategies `FloatHyperparameter.mutate` and
`CategoricalParameter.mutate` dispatch on; `unknown` stands for any other
strategy string (the `else: raise NotImplementedError` branch). -/
inductive MutationStrategy where
  | simple
  | localSearch
  | unknown
deriving DecidableEq, Repr

/-- The method `FloatHyperparameter.mutate`.  Here `parent = none` models Python's
`parent=None` default (replaced by `self`); `draw` is the strategy's random
input (the raw sampling draw for `"simple"`, the accepted normalized
Gaussian draw for `"local_search"`).  After the strategy produces a child,
the degenerate-value guard `if parent.value == child.value: raise
ValueError` runs. -/
def FloatHyperparameter.mutate (hp : FloatHyperparameter)
    (parent : Option FloatHyperparameter) (strategy : MutationStrategy)
    (draw : ℚ) : Except PyError FloatHyperparameter :=
  let par := parent.getD hp
  match strategy with
  | .unknown => .error .notImplementedError
  | .simple =>
    let child : FloatHyperparameter := { hp with value := hp.sampleValue draw }
    if par.value = child.value then .error .valueError else .ok child
  | .localSearch =>
    let child : FloatHyperparameter := { hp with value := hp.neighbourValue draw }
    if par.value = child.value then .error .valueError else .ok child

/-! ## CategoricalParameter (neps/search_spaces/numerical/categorical.py)

Choice values are modelled as integers; `value = none` is the unsampled
state (`self.value = None`). -/

structure CategoricalParameter where
  choices : List ℤ
  value : Option ℤ
deriving DecidableEq, Repr

/-- The method `CategoricalParameter.mutate`.  For `"simple"` the child is a fresh
copy that samples `choices[idx]` (`idx` the uniform index drawn by
`np.random.choice`); for `"local_search"` the child is the first neighbour
from `_get_neighbours`, whose value `cand` is some entry of the shuffled
choice list (the loop's random output, taken here as an input).  The same
degenerate-value guard as for floats runs afterwards. -/
def CategoricalParameter.mutate (cp : CategoricalParameter)
    (parent : Option CategoricalParameter) (strategy : MutationStrategy)
    (idx : Nat) (cand : ℤ) : Except PyError CategoricalParameter :=
  let par := parent.getD cp
  match strategy with
  | .unknown => .error .notImplementedError
  | .simple =>
    let child : CategoricalParameter := { cp with value := cp.choices.get? idx }
    if par.value = child.value then .error .valueError else .ok child
  | .localSearch =>
    let child : CategoricalParameter := { cp with value := some cand }
    if par.value = child.value then .error .valueError else .ok child

/-- C9. For every `FloatHyperparameter` with `lower < upper` and every
value within `[lower, upper]`, `_transform` followed by `_inv_transform`
restores the hyperparameter exactly (over the exact-rational model of the
arithmetic). -/
theorem transform_invTransform_id (hp : FloatHyperparameter)
    (hlt : hp.lower < hp.upper) (hlow : hp.lower ≤ hp.value)
    (hhigh : hp.value ≤ hp.upper) :
    hp.transform.invTransform = hp := by
  have hne : hp.upper - hp.lower ≠ 0 := by
    intro h
    have : hp.upper = hp.lower := by linarith
    linarith
  cases hp with
  | mk l u v =>
    simp only [FloatHyperparameter.transform, FloatHyperparameter.invTransform,
      FloatHyperparameter.mk.injEq, true_and]
    field_simp

/-- Witness for C9: bounds `[1, 3]`, value `2`. -/
theorem transform_invTransform_id_witness :
    (FloatHyperparameter.mk 1 3 2).transform.invTransform =
      FloatHyperparameter.mk 1 3 2 :=
  transform_invTransform_id ⟨1, 3, 2⟩ (by norm_num) (by norm_num) (by norm_num)

/-- C8. For every `FloatHyperparameter` and every
`CategoricalParameter`, `mutate` either returns a child whose value differs
from the (defaulted) parent's value or raises `ValueError`; it never
returns a child whose value equals the parent's value. -/
theorem mutate_never_returns_parent_value :
    (∀ (hp : FloatHyperparameter) (parent : Option FloatHyperparameter)
       (strategy : MutationStrategy) (draw : ℚ) (child : FloatHyperparameter),
       hp.mutate parent strategy draw = .ok child →
       child.value ≠ (parent.getD hp).value) ∧
    (∀ (cp : CategoricalParameter) (parent : Option CategoricalParameter)
       (strategy : MutationStrategy) (idx : Nat) (cand : ℤ)
       (child : CategoricalParameter),
       cp.mutate parent strategy idx cand = .ok child →
       child.value ≠ (parent.getD cp).value) := by
  constructor
  · intro hp parent strategy draw child h heq
    cases strategy with
    | unknown => simp [FloatHyperparameter.mutate] at h
    | simple =>
      rw [FloatHyperparameter.mutate] at h
      by_cases hv : (parent.getD hp).value = hp.sampleValue draw
      · simp [hv] at h
      · simp [hv] at h
        rw [← h] at heq
        exact hv heq.symm
    | localSearch =>
      rw [FloatHyperparameter.mutate] at h
      by_cases hv : (parent.getD hp).value = hp.neighbourValue draw
      · simp [hv] at h
      · simp [hv] at h
        rw [← h] at heq
        exact hv heq.symm
  · intro cp parent strategy idx cand child h heq
    cases strategy with
    | unknown => simp [CategoricalParameter.mutate] at h
    | simple =>
      rw [CategoricalParameter.mutate] at h
      by_cases hv : (parent.getD cp).value = cp.choices[idx]?
      · simp [hv] at h
      · simp [hv] at h
        rw [← h] at heq
        exact hv heq.symm
    | localSearch =>
      rw [CategoricalParameter.mutate] at h
      by_cases hv : (parent.getD cp).value = some cand
      · simp [hv] at h
      · simp [hv] at h
        rw [← h] at heq
        exact hv heq.symm

/-- Witness for C8: a float mutate over `[0, 1]` from value `0` with draw
`1/2` succeeds and indeed differs from the parent; a categorical mutate
over `{1, 2, 3}` from value `1` to neighbour `2` succeeds and differs. -/
theorem mutate_never_returns_parent_value_witness :
    ((1 : ℚ)/2 ≠ (0 : ℚ)) ∧ (some (2 : ℤ) ≠ some (1 : ℤ)) := by
  constructor
  · have h := mutate_never_returns_parent_value.1 ⟨0, 1, 0⟩ none .simple (1/2)
      ⟨0, 1, 1/2⟩ (by simp [FloatHyperparameter.mutate,
        FloatHyperparameter.sampleValue]; norm_num)
    simpa using h
  · have h := mutate_never_returns_parent_value.2 ⟨[1, 2, 3], some 1⟩ none
      .localSearch 0 2 ⟨[1, 2, 3], some 2⟩ (by simp [CategoricalParameter.mutate])
    simpa using h

/-! ## SearchSpace (neps/search_spaces/search_space.py)

The search space is an ordered mapping from parameter name to a parameter
object, modelled as an association list over an abstract parameter type
`P`.  The contained parameters are consumed only through their `mutate` /
`crossover` methods, passed in as functions (Python's dynamic dispatch);
a call of `mutate` that raises is an `Except.error`, and `crossover`'s
three observable outcomes are captured by `CrossOutcome`. -/

structure SearchSpace (P : Type) where
  params : List (String × P)
deriving DecidableEq, Repr

/-- The retry loop inside `SearchSpace._smbo_mutation`:
`while patience > 0: try: return mutated; except: patience -= 1`.
Returns the successfully mutated parameter (or `none` if patience was
exhausted) together with the number of calls made to the underlying
parameter `mutate`. -/
def smboLoop {P : Type} (mutateHp : P → Except PyError P) (hp : P) :
    Nat → Option P × Nat
  | 0 => (none, 0)
  | n + 1 =>
    match mutateHp hp with
    | .ok c => (some c, 1)
    | .error _ =>
      let r := smboLoop mutateHp hp n
      (r.1, r.2 + 1)

/-- The method `SearchSpace._smbo_mutation`: copy the parameter array, pick the
parameter at the (randomly drawn) index `idx`, retry its `mutate` while
patience lasts, and return the array — updated at `idx` on success,
unchanged otherwise.  `new_config[idx]` on an out-of-range index raises
`IndexError` (unreachable: `idx = random.randint(0, num_hps - 1)`). -/
def smboMutation {P : Type} (mutateHp : P → Except PyError P) (cfg : List P)
    (idx : Nat) (patience : Nat) : Except PyError (List P) :=
  match cfg.get? idx with
  | none => .error .indexError
  | some hp =>
    match (smboLoop mutateHp hp patience).1 with
    | some c => .ok (cfg.set idx c)
    | none => .ok cfg

/-- The method `SearchSpace.mutate`: dispatches on the mutation strategy (anything but
`"smbo"` raises `NotImplementedError`), runs `_smbo_mutation`, and builds
the child `SearchSpace` from the parameter names zipped with the resulting
parameter array. -/
def SearchSpace.mutate {P : Type} (space : SearchSpace P)
    (mutateHp : P → Except PyError P) (strategy : String) (idx : Nat)
    (patience : Nat) : Except PyError (SearchSpace P) :=
  if strategy = "smbo" then
    match smboMutation mutateHp (space.params.map Prod.snd) idx patience with
    | .error e => .error e
    | .ok newCfg => .ok ⟨(space.params.map Prod.fst).zip newCfg⟩
  else
    .error .notImplementedError

/-- Zipping an association list's keys with its values rebuilds it. -/
lemma zip_map_fst_snd_self {α β : Type} (l : List (α × β)) :
    (l.map Prod.fst).zip (l.map Prod.snd) = l := by
  induction l with
  | nil => rfl
  | cons hd tl ih => simp [ih]

/-- C1, counterexample. A one-parameter space whose parameter's
`mutate` always raises, mutated with `patience = 0`: the call does *not*
raise — it returns a child search space with the parameter retained
unchanged (the claim asserts it must raise). -/
theorem mutate_patience_zero_counterexample :
    SearchSpace.mutate (P := ℤ) ⟨[("f", 0)]⟩ (fun _ => .error .valueError)
      "smbo" 0 0 = .ok ⟨[("f", 0)]⟩ := by
  rfl

/-- C1, amended. Calling `SearchSpace.mutate` with `patience = 0` (on
any space, whatever the chosen parameter's `mutate` does) performs zero
calls to the underlying parameter `mutate` and returns normally — no
exception — with a child equal to the parent space (every parameter
retained unchanged). -/
theorem mutate_patience_zero_returns_unmutated {P : Type}
    (space : SearchSpace P) (mutateHp : P → Except PyError P) (idx : Nat)
    (h : idx < space.params.length) :
    space.mutate mutateHp "smbo" idx 0 = .ok space ∧
    (∀ hp : P, (smboLoop mutateHp hp 0).2 = 0) := by
  constructor
  · have hidx : ((space.params.map Prod.snd).get? idx).isSome := by
      rw [List.get?_eq_get (by simpa using h)]
      rfl
    rw [SearchSpace.mutate, if_pos rfl]
    rcases Option.isSome_iff_exists.mp hidx with ⟨hp, hhp⟩
    rw [smboMutation, hhp]
    simp only [smboLoop]
    rw [zip_map_fst_snd_self]
  · intro hp
    rfl

/-- Witness for the amended C1 at the counterexample's concrete input. -/
theorem mutate_patience_zero_returns_unmutated_witness :
    SearchSpace.mutate (P := ℤ) ⟨[("f", 7)]⟩ (fun _ => .error .valueError)
      "smbo" 0 0 = .ok ⟨[("f", 7)]⟩ :=
  (mutate_patience_zero_returns_unmutated ⟨[("f", 7)]⟩
    (fun _ => .error .valueError) 0 (by decide)).1

/-! ## SearchSpace crossover (neps/search_spaces/search_space.py)

`_simple_crossover` calls each parameter's own `crossover`; from the
caller's viewpoint one attempt has three observable outcomes, captured by
`CrossOutcome`:
* `pair a b` — the call returns an unpackable pair of children;
* `notImplemented` — the call raises `NotImplementedError`
  (`FloatHyperparameter.crossover`);
* `failure` — the call raises any other exception.  In particular
  `CategoricalParameter.crossover`'s body is `pass`, so it returns `None`
  and the unpacking `child1, child2 = ...` raises `TypeError`, which the
  generic `except Exception` treats as a retryable failure. -/

inductive CrossOutcome (P : Type) where
  | pair : P → P → CrossOutcome P
  | notImplemented
  | failure
deriving DecidableEq, Repr

/-- The inner retry loop of `_simple_crossover` for one parameter pair:
on a successful attempt the two children are appended; on
`NotImplementedError` the two parents are appended; on any other exception
patience is decremented and the attempt retried.  Returns the pair to
append (`none`: the loop exhausted patience and appended nothing) and the
remaining patience (shared across the whole per-parameter iteration). -/
def crossoverLoop {P : Type} (crossHp : P → P → CrossOutcome P) (p q : P) :
    Nat → Option (P × P) × Nat
  | 0 => (none, 0)
  | n + 1 =>
    match crossHp p q with
    | .pair a b => (some (a, b), n + 1)
    | .notImplemented => (some (p, q), n + 1)
    | .failure => crossoverLoop crossHp p q n

/-- The per-parameter iteration of `_simple_crossover`: for the `i`-th
aligned parameter pair, if the coin `np.random.random() <
crossover_probability_per_hyperparameter` comes up (modelled by `coin i`),
run the retry loop and append its result; otherwise append the two parents
unchanged. -/
def simpleCrossoverGo {P : Type} (crossHp : P → P → CrossOutcome P) :
    List (P × P) → (Nat → Bool) → Nat → Nat → List P × List P
  | [], _, _, _ => ([], [])
  | (p, q) :: rest, coin, i, patience =>
    if coin i then
      let r := crossoverLoop crossHp p q patience
      let tail := simpleCrossoverGo crossHp rest coin (i + 1) r.2
      match r.1 with
      | some (a, b) => (a :: tail.1, b :: tail.2)
      | none => tail
    else
      let tail := simpleCrossoverGo crossHp rest coin (i + 1) patience
      (p :: tail.1, q :: tail.2)

/-- The method `SearchSpace.crossover` with `crossover_strategy="simple"`: run
`_simple_crossover` over the two parents' parameter arrays (aligned by the
shared key order) and build the two children by zipping the parent's
parameter names with the two result arrays — `dict(zip(keys, new_config))`
silently truncates to the shorter list. -/
def SearchSpace.crossover {P : Type} (space other : SearchSpace P)
    (crossHp : P → P → CrossOutcome P) (coin : Nat → Bool) (patience : Nat) :
    SearchSpace P × SearchSpace P :=
  let pairs := (space.params.map Prod.snd).zip (other.params.map Prod.snd)
  let res := simpleCrossoverGo crossHp pairs coin 0 patience
  (⟨(space.params.map Prod.fst).zip res.1⟩,
   ⟨(space.params.map Prod.fst).zip res.2⟩)

/-- The `except NotImplementedError` branch is the intended no-op
fallback: a parameter whose `crossover` *raises* `NotImplementedError`
(e.g. `FloatHyperparameter.crossover`) appends both parents unchanged on
the first attempt, without spending patience. -/
lemma crossoverLoop_notImplemented {P : Type} (p q : P) (n : Nat) :
    crossoverLoop (fun _ _ => CrossOutcome.notImplemented) p q (n + 1) =
      (some (p, q), n + 1) := rfl

/-- C2. At the failing input — two one-parameter spaces whose parameter
is a `CategoricalParameter` (its `crossover` body is `pass`, so every
attempt raises `TypeError` on unpacking `None`), crossover probability 1,
patience 50 — both children come back with *no* parameter at all: the
parameter named `"c"` is silently dropped, not retained, contradicting the
claim that each child contains a parameter for every parameter name. -/
theorem crossover_drops_parameter_at_failing_input :
    SearchSpace.crossover (P := ℤ) ⟨[("c", 1)]⟩ ⟨[("c", 2)]⟩
      (fun _ _ => .failure) (fun _ => true) 50 =
      (⟨[]⟩, ⟨[]⟩) := by
  rfl

/-! ## Tree strings (cfg.py)

Derivation trees are parenthesized strings such as `(S (T 2) (ADD +) (T 1))`,
modelled as `List Char`.  The code's only structural operations are Python's
`tree.split(" ")` (split on every single space, keeping empty fragments) and
`" ".join(...)`, embedded below; `" ".join(s.split(" ")) == s` holds for
every string, so the token list is a lossless view. -/

/-- Python `" ".join(tokens)`. -/
def joinSpace : List (List Char) → List Char
  | [] => []
  | [t] => t
  | t :: u :: ts => t ++ ' ' :: joinSpace (u :: ts)

/-- Python `s.split(" ")`: split on every single space, keeping empty
fragments (never returns an empty list). -/
def splitSpace : List Char → List (List Char)
  | [] => [[]]
  | c :: rest =>
    match splitSpace rest with
    | [] => [[]]
    | t :: ts => if c = ' ' then [] :: t :: ts else (c :: t) :: ts

lemma splitSpace_ne_nil (s : List Char) : splitSpace s ≠ [] := by
  cases s with
  | nil => simp [splitSpace]
  | cons c rest =>
    rw [splitSpace]
    cases h : splitSpace rest with
    | nil => simp
    | cons t ts =>
      by_cases hc : c = ' ' <;> simp [hc]

lemma joinSpace_cons_head (c : Char) (t : List Char) (ts : List (List Char)) :
    joinSpace ((c :: t) :: ts) = c :: joinSpace (t :: ts) := by
  cases ts with
  | nil => rfl
  | cons u ts => rfl

/-- Python `" ".join` is a left inverse of `split(" ")`: the token list is a
lossless view of the tree string. -/
lemma joinSpace_splitSpace (s : List Char) : joinSpace (splitSpace s) = s := by
  induction s with
  | nil => rfl
  | cons c rest ih =>
    cases h : splitSpace rest with
    | nil => exact absurd h (splitSpace_ne_nil rest)
    | cons t ts =>
      rw [h] at ih
      by_cases hc : c = ' '
      · have e : splitSpace (c :: rest) = [] :: t :: ts := by
          simp [splitSpace, h, hc]
        rw [e, show joinSpace ([] :: t :: ts) = [] ++ ' ' :: joinSpace (t :: ts)
          from rfl, ih, hc]
        rfl
      · have e : splitSpace (c :: rest) = (c :: t) :: ts := by
          simp [splitSpace, h, hc]
        rw [e, joinSpace_cons_head, ih]

lemma joinSpace_cons_of_ne_nil (t : List Char) (ts : List (List Char))
    (h : ts ≠ []) : joinSpace (t :: ts) = t ++ ' ' :: joinSpace ts := by
  match ts, h with
  | u :: ts', _ => rfl

/-- Splitting at an interior position and rejoining with the separator
restores the joined list. -/
lemma joinSpace_take_drop (ts : List (List Char)) :
    ∀ n : Nat, 0 < n → n < ts.length →
    joinSpace (ts.take n) ++ ' ' :: joinSpace (ts.drop n) = joinSpace ts := by
  induction ts with
  | nil => intro n _ h; simp at h
  | cons t ts ih =>
    intro n hn hlen
    obtain ⟨m, rfl⟩ : ∃ m, n = m + 1 := ⟨n - 1, by omega⟩
    cases m with
    | zero =>
      have hts : ts ≠ [] := by
        intro h
        rw [h] at hlen
        simp at hlen
      show joinSpace [t] ++ ' ' :: joinSpace ts = joinSpace (t :: ts)
      rw [joinSpace_cons_of_ne_nil t ts hts]
      rfl
    | succ k =>
      have hm : k + 1 < ts.length := by
        simpa using hlen
      have hts : ts ≠ [] := by
        intro h
        rw [h] at hm
        simp at hm
      have htake : ts.take (k + 1) ≠ [] := by
        intro h
        have h1 := congrArg List.length h
        rw [List.length_take] at h1
        simp only [List.length_nil] at h1
        omega
      show joinSpace (t :: ts.take (k + 1)) ++ ' ' :: joinSpace (ts.drop (k + 1)) =
        joinSpace (t :: ts)
      rw [joinSpace_cons_of_ne_nil t (ts.take (k + 1)) htake,
        joinSpace_cons_of_ne_nil t ts hts, List.append_assoc, List.cons_append,
        ih (k + 1) (Nat.succ_pos k) hm]

/-- The bracket-matching scan of `Grammar.remove_subtree`: walk the
characters right of the split, keeping a running open/close counter that
starts at 1; return `current_index`, the number of characters consumed
before the counter first reaches 0 (the whole length if it never does). -/
def bracketScan : List Char → Int → Nat
  | [], _ => 0
  | c :: rest, counter =>
    let counter' := if c = '(' then counter + 1
      else if c = ')' then counter - 1 else counter
    if counter' = 0 then 0 else 1 + bracketScan rest counter'

/-- The method `Grammar.remove_subtree(tree, index)`: split the tree string on spaces,
rebuild the part before the index (`" ".join(split_tree[:index]) + " "`)
and the part after it, locate the removed subtree's closing bracket with
`bracketScan`, and return `(pre_subtree, removed, post_subtree)`. -/
def removeSubtree (tree : List Char) (index : Nat) :
    List Char × List Char × List Char :=
  let split := splitSpace tree
  let pre := joinSpace (split.take index) ++ [' ']
  let right := joinSpace (split.drop (index + 1))
  let ci := bracketScan right 1
  let post := right.drop (ci + 1)
  let removed := split.getD index [] ++ ' ' :: right.take (ci + 1)
  (pre, removed, post)

/-- C6, counterexample. At index 0 — which *is* a token index pointing
at a nonterminal occurrence (`(S`, the root) — the concatenation of
`remove_subtree`'s three parts is not the original tree: `pre_subtree` is
`" ".join([]) + " " = " "`, so the result gains a leading space. -/
theorem removeSubtree_index_zero_counterexample :
    ((removeSubtree ('(' :: 'S' :: ' ' :: '(' :: 'T' :: ' ' :: '1' :: ')' :: ')' :: []) 0).1 ++
      (removeSubtree ('(' :: 'S' :: ' ' :: '(' :: 'T' :: ' ' :: '1' :: ')' :: ')' :: []) 0).2.1 ++
      (removeSubtree ('(' :: 'S' :: ' ' :: '(' :: 'T' :: ' ' :: '1' :: ')' :: ')' :: []) 0).2.2 =
      ' ' :: '(' :: 'S' :: ' ' :: '(' :: 'T' :: ' ' :: '1' :: ')' :: ')' :: []) ∧
    (' ' :: '(' :: 'S' :: ' ' :: '(' :: 'T' :: ' ' :: '1' :: ')' :: ')' :: [] ≠
      '(' :: 'S' :: ' ' :: '(' :: 'T' :: ' ' :: '1' :: ')' :: ')' :: []) := by
  constructor
  · rfl
  · decide

/-- C6, amended. For every tree string and every token index other
than 0 that is not the final token (in a well-formed tree, every
nonterminal-occurrence index other than the root's satisfies this),
`remove_subtree` returns a triple whose concatenation is exactly the
original tree string; at index 0 the concatenation instead gains a leading
space (see the counterexample). -/
theorem removeSubtree_concat_eq (tree : List Char) (index : Nat)
    (h1 : 1 ≤ index) (h2 : index + 1 < (splitSpace tree).length) :
    (removeSubtree tree index).1 ++ (removeSubtree tree index).2.1 ++
      (removeSubtree tree index).2.2 = tree := by
  have hidx : index < (splitSpace tree).length := by omega
  have hdrop : (splitSpace tree).drop (index + 1) ≠ [] := by
    intro h
    have := congrArg List.length h
    rw [List.length_drop, List.length_nil] at this
    omega
  have key : (splitSpace tree)[index] ++
      ' ' :: joinSpace ((splitSpace tree).drop (index + 1)) =
      joinSpace ((splitSpace tree).drop index) := by
    rw [List.drop_eq_getElem_cons hidx,
      joinSpace_cons_of_ne_nil _ _ hdrop]
  simp only [removeSubtree, List.append_assoc, List.cons_append, List.nil_append,
    List.take_append_drop]
  rw [List.getD_eq_getElem _ _ hidx, key,
    joinSpace_take_drop _ index h1 hidx, joinSpace_splitSpace]

/-- Witness for the amended C6: removing the `(ADD +)` subtree (token
index 4) of `(S (S (T 2)) (ADD +) (T 1))` and re-concatenating restores
the tree. -/
theorem removeSubtree_concat_eq_witness :
    (removeSubtree ("(S (S (T 2)) (ADD +) (T 1))".toList) 4).1 ++
      (removeSubtree ("(S (S (T 2)) (ADD +) (T 1))".toList) 4).2.1 ++
      (removeSubtree ("(S (S (T 2)) (ADD +) (T 1))".toList) 4).2.2 =
      "(S (S (T 2)) (ADD +) (T 1))".toList :=
  removeSubtree_concat_eq _ 4 (by decide) (by decide)

/-! ## The Grammar class (cfg.py)

A production maps a nonterminal (an NLTK `Nonterminal`, here its string
name) to a right-hand side mixing nonterminals and terminals (terminals
are Python `str`s, mirrored by the `GSym` constructors — the code's
`isinstance(sym, str)` test is the `GSym` case split).  The `Grammar`
object carries the production list and, for depth-constrained mode, the
mapping from nonterminal name to its maximum open-recursion count. -/

inductive GSym where
  | nt : String → GSym
  | tm : String → GSym
deriving DecidableEq, Repr

structure Production where
  lhs : String
  rhs : List GSym
deriving DecidableEq, Repr

structure Grammar where
  productions : List Production
  depthConstraints : List (String × Nat)
deriving DecidableEq, Repr

/-- The lookup `self.productions(lhs=symbol)`: the productions for one nonterminal,
in rule order. -/
def Grammar.prodsFor (g : Grammar) (s : String) : List Production :=
  g.productions.filter (fun p => p.lhs = s)

/-- The attribute `non_unique_nonterminals`: the left-hand sides of all productions,
with repetitions. -/
def Grammar.nonUniqueNonterminals (g : Grammar) : List String :=
  g.productions.map (fun p => p.lhs)

/-- The attribute `swappable_nonterminals`: the nonterminals with more than one
production (the set comprehension's deduplication is `dedup`). -/
def Grammar.swappableNonterminals (g : Grammar) : List String :=
  (g.nonUniqueNonterminals.filter
    (fun s => 1 < g.nonUniqueNonterminals.count s)).dedup

/-- The list `swappable_indices` inside `Grammar.rand_subtree`: the token positions
`i` of the split tree with `split_tree[i][1:]` in the swappable set. -/
def swappableIndices (g : Grammar) (split : List (List Char)) : List Nat :=
  (List.range split.length).filter
    (fun i => decide (((split.getD i []).drop 1) ∈
      g.swappableNonterminals.map String.toList))

/-- The method `Grammar.rand_subtree(tree)`, with the random draw
`r = np.random.randint(1, len(swappable_indices))` made explicit:
`randint(1, n)` yields exactly the integers `1 ≤ r < n` (and raises
`ValueError` when `n ≤ 1`), so draws outside that range do not occur and
are mapped to `none`.  Returns the chosen occurrence's head symbol
(`split_tree[swappable_indices[r]][1:]`) and its token index. -/
def Grammar.randSubtree (g : Grammar) (tree : List Char) (r : Nat) :
    Option (List Char × Nat) :=
  let split := splitSpace tree
  let idxs := swappableIndices g split
  if 1 ≤ r ∧ r < idxs.length then
    (idxs.get? r).map (fun idx => ((split.getD idx []).drop 1, idx))
  else
    none

/-- The token indices `rand_subtree` can actually return on a given tree,
collected over every draw `np.random.randint(1, len(swappable_indices))`
can produce. -/
def randSubtreeSupport (g : Grammar) (tree : List Char) : List Nat :=
  (List.range (swappableIndices g (splitSpace tree)).length).filterMap
    (fun r => (g.randSubtree tree r).map Prod.snd)

/-- The simple arithmetic grammar `S -> S ADD T | T`, `T -> '1' | '2'`,
`ADD -> '+'` used as a concrete test grammar. -/
def arithGrammar : Grammar :=
  ⟨[⟨"S", [.nt "S", .nt "ADD", .nt "T"]⟩,
    ⟨"S", [.nt "T"]⟩,
    ⟨"T", [.tm "1"]⟩,
    ⟨"T", [.tm "2"]⟩,
    ⟨"ADD", [.tm "+"]⟩], []⟩

/-- C3, counterexample. On `(S (S (T 2)) (ADD +) (T 1))` the positions
whose head symbol is swappable are the token indices 0, 1, 2 and 6, but
the indices `rand_subtree` can actually return are only 1, 2 and 6: the
draw `np.random.randint(1, len(swappable_indices))` never produces list
position 0, so the first swappable occurrence (the root) has probability
zero — the choice is not uniform among all such positions. -/
theorem rand_subtree_not_uniform_counterexample :
    swappableIndices arithGrammar
        (splitSpace "(S (S (T 2)) (ADD +) (T 1))".toList) = [0, 1, 2, 6] ∧
    randSubtreeSupport arithGrammar "(S (S (T 2)) (ADD +) (T 1))".toList =
      [1, 2, 6] := by
  decide

/-- C3, amended. For every tree containing swappable occurrences,
`rand_subtree` draws `r` uniformly from `randint(1, n)` (so `1 ≤ r < n`,
requiring at least two occurrences) and returns the pair (head symbol at
the chosen index, chosen index), where the chosen index is the `r`-th
entry of the list of *all* positions whose head symbol is swappable — the
choice is uniform among all such positions *except the first one*, which
is never returned. -/
theorem randSubtree_uniform_beyond_first (g : Grammar) (tree : List Char)
    (r : Nat) (h1 : 1 ≤ r)
    (h2 : r < (swappableIndices g (splitSpace tree)).length) :
    (∀ i : Nat, i ∈ swappableIndices g (splitSpace tree) ↔
      (i < (splitSpace tree).length ∧
        ((splitSpace tree).getD i []).drop 1 ∈
          g.swappableNonterminals.map String.toList)) ∧
    g.randSubtree tree r =
      some (((splitSpace tree).getD
          ((swappableIndices g (splitSpace tree)).get ⟨r, h2⟩) []).drop 1,
        (swappableIndices g (splitSpace tree)).get ⟨r, h2⟩) ∧
    (swappableIndices g (splitSpace tree)).get ⟨r, h2⟩ ≠
      (swappableIndices g (splitSpace tree)).get
        ⟨0, lt_of_le_of_lt (Nat.zero_le r) h2⟩ := by
  refine ⟨?_, ?_, ?_⟩
  · intro i
    simp [swappableIndices, List.mem_filter, List.mem_range]
  · rw [Grammar.randSubtree]
    rw [if_pos ⟨h1, h2⟩]
    rw [List.get?_eq_get h2]
    rfl
  · have hnd : (swappableIndices g (splitSpace tree)).Nodup :=
      (List.nodup_range _).filter _
    intro h
    have := (List.Nodup.get_inj_iff hnd).mp h
    rw [Fin.mk.injEq] at this
    omega

/-- Witness for the amended C3 at the counterexample's concrete tree with
draw `r = 1`: the second swappable occurrence (token index 1, head `S`) is
chosen. -/
theorem randSubtree_uniform_beyond_first_witness :
    arithGrammar.randSubtree "(S (S (T 2)) (ADD +) (T 1))".toList 1 =
      some (['S'], 1) := by
  have h := randSubtree_uniform_beyond_first arithGrammar
    "(S (S (T 2)) (ADD +) (T 1))".toList 1 (by decide) (by decide)
  rw [h.2.1]
  decide

/-! ## The convergent sampler (cfg.py, `_convergent_sampler`)

`pcount` is a `defaultdict(int)` keyed by productions: an association list
whose keys are the productions that have ever been incremented on this
branch (`prod in pcount` is key presence, and a key can be present with
count 0 after its increments have been matched by decrements).  It is also
a *mutable default argument*, created once at function definition time and
shared by every top-level call that does not pass its own — so whatever
state a call leaves behind is the state the next call starts from. -/

abbrev PCount := List (Production × Int)

/-- The count `pcount[prod]` with the `defaultdict(int)` default 0. -/
def usageCount (pc : PCount) (p : Production) : Int :=
  (List.lookup p pc).getD 0

/-- The update `pcount[production] += 1`: bump the entry in place, inserting the key
with count 1 if absent. -/
def pcIncr (pc : PCount) (p : Production) : PCount :=
  match pc with
  | [] => [(p, 1)]
  | (q, v) :: rest => if q = p then (q, v + 1) :: rest else (q, v) :: pcIncr rest p

/-- The update `pcount[production] -= 1`: the matching decrement. -/
def pcDecr (pc : PCount) (p : Production) : PCount :=
  match pc with
  | [] => [(p, -1)]
  | (q, v) :: rest => if q = p then (q, v - 1) :: rest else (q, v) :: pcDecr rest p

lemma lookup_pair_cons_eq {β : Type} (k : Production) (v : β)
    (rest : List (Production × β)) :
    List.lookup k ((k, v) :: rest) = some v := by
  simp [List.lookup_cons]

lemma lookup_pair_cons_ne {β : Type} (q k : Production) (v : β)
    (rest : List (Production × β)) (h : q ≠ k) :
    List.lookup q ((k, v) :: rest) = List.lookup q rest := by
  simp [List.lookup_cons, beq_false_of_ne h]

lemma usageCount_pcIncr (pc : PCount) (p q : Production) :
    usageCount (pcIncr pc p) q = usageCount pc q + (if q = p then 1 else 0) := by
  induction pc with
  | nil =>
    by_cases h : q = p
    · subst h
      simp [usageCount, pcIncr, lookup_pair_cons_eq]
    · simp [usageCount, pcIncr, List.lookup, beq_false_of_ne h, h]
  | cons e rest ih =>
    obtain ⟨k, v⟩ := e
    by_cases hk : k = p
    · subst hk
      rw [show pcIncr ((k, v) :: rest) k = (k, v + 1) :: rest by
        simp [pcIncr]]
      by_cases hq : q = k
      · subst hq
        simp [usageCount, lookup_pair_cons_eq]
      · simp [usageCount, lookup_pair_cons_ne q k _ _ hq, hq]
    · rw [show pcIncr ((k, v) :: rest) p = (k, v) :: pcIncr rest p by
        simp [pcIncr, hk]]
      by_cases hq : q = k
      · subst hq
        have hqp : q ≠ p := fun h => hk (by rw [← h])
        simp [usageCount, lookup_pair_cons_eq, hqp]
      · rw [usageCount, lookup_pair_cons_ne q k _ _ hq, usageCount,
          lookup_pair_cons_ne q k _ _ hq]
        exact ih

lemma usageCount_pcDecr (pc : PCount) (p q : Production) :
    usageCount (pcDecr pc p) q = usageCount pc q - (if q = p then 1 else 0) := by
  induction pc with
  | nil =>
    by_cases h : q = p
    · subst h
      simp [usageCount, pcDecr, lookup_pair_cons_eq]
    · simp [usageCount, pcDecr, List.lookup, beq_false_of_ne h, h]
  | cons e rest ih =>
    obtain ⟨k, v⟩ := e
    by_cases hk : k = p
    · subst hk
      rw [show pcDecr ((k, v) :: rest) k = (k, v - 1) :: rest by
        simp [pcDecr]]
      by_cases hq : q = k
      · subst hq
        simp [usageCount, lookup_pair_cons_eq]
      · simp [usageCount, lookup_pair_cons_ne q k _ _ hq, hq]
    · rw [show pcDecr ((k, v) :: rest) p = (k, v) :: pcDecr rest p by
        simp [pcDecr, hk]]
      by_cases hq : q = k
      · subst hq
        have hqp : q ≠ p := fun h => hk (by rw [← h])
        simp [usageCount, lookup_pair_cons_eq, hqp]
      · rw [usageCount, lookup_pair_cons_ne q k _ _ hq, usageCount,
          lookup_pair_cons_ne q k _ _ hq]
        exact ih

/-- The weight list of `_convergent_sampler`: `cfactor ** pcount[prod]` if
the production's key is present, else `1.0`. -/
def convergentWeights (prods : List Production) (pc : PCount) (cf : ℚ) : List ℚ :=
  prods.map (fun prod =>
    match List.lookup prod pc with
    | some c => cf ^ c
    | none => 1)

/-- The normalized probabilities `probs = [w / sum(weights) for w in weights]`. -/
def convergentProbs (g : Grammar) (sym : String) (pc : PCount) (cf : ℚ) : List ℚ :=
  let weights := convergentWeights (g.prodsFor sym) pc cf
  weights.map (fun w => w / weights.sum)

/-- Processing of a chosen production's right-hand side, shared shape of
the sampler's `for sym in production.rhs()` loop: terminals are appended
verbatim; nonterminals recurse through `rec` (the sampler at the next
level), appending the subtree and its closing bracket and accumulating the
child depths and production counts. -/
def goRhs
    (rec : String → PCount → List ℚ → Option (List Char × Nat × Nat × PCount × List ℚ)) :
    List GSym → List Char → List Nat → Nat → PCount → List ℚ →
    Option (List Char × List Nat × Nat × PCount × List ℚ)
  | [], tree, depths, nprod, pc, rng => some (tree, depths, nprod, pc, rng)
  | .tm t :: rest, tree, depths, nprod, pc, rng =>
    goRhs rec rest (tree ++ ' ' :: t.toList) depths nprod pc rng
  | .nt s :: rest, tree, depths, nprod, pc, rng =>
    match rec s pc rng with
    | none => none
    | some (sub, d, np, pc', rng') =>
      goRhs rec rest (tree ++ ' ' :: (sub ++ [')'])) (depths ++ [d]) (nprod + np)
        pc' rng'

/-- The method `Grammar._convergent_sampler`, with the recursion bounded by `fuel`
(the Python recursion has no bound and can blow the interpreter stack; a
run that needs more nesting than `fuel` returns `none`) and the random
stream explicit (`none` on exhaustion).  Returns the tree string, the
maximum depth, the number of productions used, and the final `pcount` and
stream. -/
def convergentSampler (g : Grammar) (cf : ℚ) :
    Nat → String → PCount → List ℚ → Option (List Char × Nat × Nat × PCount × List ℚ)
  | 0, _, _, _ => none
  | fuel + 1, sym, pc, rng =>
    match rng with
    | [] => none
    | x :: rng₁ =>
      match choice (g.prodsFor sym) (some (convergentProbs g sym pc cf)) x with
      | none => none
      | some production =>
        match goRhs (convergentSampler g cf fuel) production.rhs
            ('(' :: sym.data) [] 1 (pcIncr pc production) rng₁ with
        | none => none
        | some (tree, depths, nprod, pc₂, rng₂) =>
          some (tree, (if depths.isEmpty then 1 else depths.foldl max 0 + 1), nprod,
            pcDecr pc₂ production, rng₂)

/-- One top-level convergent sample as issued by `Grammar.sampler`:
`_convergent_sampler(symbol, cfactor)[0] + ")"`, threading the persistent
default-argument `pcount` state in and out. -/
def convergentSamplerCall (g : Grammar) (cf : ℚ) (fuel : Nat) (sym : String)
    (pc : PCount) (rng : List ℚ) : Option (List Char × PCount × List ℚ) :=
  match convergentSampler g cf fuel sym pc rng with
  | none => none
  | some (tree, _, _, pc', rng') => some (tree ++ [')'], pc', rng')

/-- The two weight branches collapse to `cfactor ^ count`: a present key
carries its stored count, and an absent key has count 0 with
`cfactor ^ 0 = 1.0`. -/
lemma convergentWeights_eq (prods : List Production) (pc : PCount) (cf : ℚ) :
    convergentWeights prods pc cf = prods.map (fun p => cf ^ usageCount pc p) := by
  unfold convergentWeights
  apply List.map_congr_left
  intro p _
  cases h : List.lookup p pc with
  | none => simp [usageCount, h]
  | some c => simp [usageCount, h]

/-- Two `pcount` states with the same counts everywhere (the key sets may
differ on keys of count 0). -/
def pcEquiv (a b : PCount) : Prop := ∀ q, usageCount a q = usageCount b q

lemma pcEquiv_incr {a b : PCount} (h : pcEquiv a b) (p : Production) :
    pcEquiv (pcIncr a p) (pcIncr b p) := by
  intro q
  rw [usageCount_pcIncr, usageCount_pcIncr, h q]

lemma convergentProbs_congr (g : Grammar) (sym : String) (cf : ℚ)
    {a b : PCount} (h : pcEquiv a b) :
    convergentProbs g sym a cf = convergentProbs g sym b cf := by
  unfold convergentProbs
  rw [convergentWeights_eq, convergentWeights_eq,
    show (fun p => cf ^ usageCount a p) = fun p => cf ^ usageCount b p from
      funext fun p => by rw [h p]]

/-- Right-hand-side processing leaves every usage count unchanged whenever
the recursive calls do. -/
lemma goRhs_usage
    (rec : String → PCount → List ℚ → Option (List Char × Nat × Nat × PCount × List ℚ))
    (hrec : ∀ s pc rng t d np pc' rng', rec s pc rng = some (t, d, np, pc', rng') →
      ∀ q, usageCount pc' q = usageCount pc q) :
    ∀ (syms : List GSym) (tree : List Char) (depths : List Nat) (nprod : Nat)
      (pc : PCount) (rng : List ℚ) (t' : List Char) (d' : List Nat) (np' : Nat)
      (pc' : PCount) (rng' : List ℚ),
      goRhs rec syms tree depths nprod pc rng = some (t', d', np', pc', rng') →
      ∀ q, usageCount pc' q = usageCount pc q := by
  intro syms
  induction syms with
  | nil =>
    intro tree depths nprod pc rng t' d' np' pc' rng' h q
    simp only [goRhs, Option.some.injEq, Prod.mk.injEq] at h
    obtain ⟨-, -, -, hpc, -⟩ := h
    rw [← hpc]
  | cons s rest ih =>
    cases s with
    | tm t0 =>
      intro tree depths nprod pc rng t' d' np' pc' rng' h q
      simp only [goRhs] at h
      exact ih _ _ _ _ _ _ _ _ _ _ h q
    | nt s0 =>
      intro tree depths nprod pc rng t' d' np' pc' rng' h q
      simp only [goRhs] at h
      cases hr : rec s0 pc rng with
      | none => rw [hr] at h; exact absurd h (by simp)
      | some out =>
        obtain ⟨sub, d0, np0, pcm, rngm⟩ := out
        rw [hr] at h
        rw [ih _ _ _ _ _ _ _ _ _ _ h q, hrec _ _ _ _ _ _ _ _ hr q]

/-- After any successful `_convergent_sampler` run, every production's
usage count is restored to its pre-call value: the increment before the
recursion is matched by the decrement after it, and the recursive calls
restore their own increments. -/
lemma convergentSampler_usage (g : Grammar) (cf : ℚ) :
    ∀ (fuel : Nat) (sym : String) (pc : PCount) (rng : List ℚ) (t : List Char)
      (d np : Nat) (pc' : PCount) (rng' : List ℚ),
      convergentSampler g cf fuel sym pc rng = some (t, d, np, pc', rng') →
      ∀ q, usageCount pc' q = usageCount pc q := by
  intro fuel
  induction fuel with
  | zero =>
    intro sym pc rng t d np pc' rng' h
    exact absurd h (by simp [convergentSampler])
  | succ n ih =>
    intro sym pc rng t d np pc' rng' h q
    cases rng with
    | nil => simp [convergentSampler] at h
    | cons x rng₁ =>
      simp only [convergentSampler] at h
      split at h
      · exact absurd h (by simp)
      · rename_i production hc
        split at h
        · exact absurd h (by simp)
        · rename_i tree depths nprod pc₂ rng₂ hg
          simp only [Option.some.injEq, Prod.mk.injEq] at h
          obtain ⟨-, -, -, hpc, -⟩ := h
          rw [← hpc, usageCount_pcDecr]
          rw [goRhs_usage _ (fun s a r t0 d0 np0 a' r' hh q0 =>
            ih s a r t0 d0 np0 a' r' hh q0) _ _ _ _ _ _ _ _ _ _ _ hg q,
            usageCount_pcIncr]
          ring

/-- Usage-equal `pcount` states are indistinguishable to the sampler: the
same draws yield the same tree, depth and production count, and
usage-equal final states. -/
lemma goRhs_equiv
    (recA recB : String → PCount → List ℚ → Option (List Char × Nat × Nat × PCount × List ℚ))
    (hrec : ∀ s pcA pcB rng, pcEquiv pcA pcB →
      (recA s pcA rng = none ∧ recB s pcB rng = none) ∨
      ∃ t d np pcA' pcB' rng', recA s pcA rng = some (t, d, np, pcA', rng') ∧
        recB s pcB rng = some (t, d, np, pcB', rng') ∧ pcEquiv pcA' pcB') :
    ∀ (syms : List GSym) (tree : List Char) (depths : List Nat) (nprod : Nat)
      (pcA pcB : PCount) (rng : List ℚ), pcEquiv pcA pcB →
      (goRhs recA syms tree depths nprod pcA rng = none ∧
        goRhs recB syms tree depths nprod pcB rng = none) ∨
      ∃ t' d' np' pcA' pcB' rng',
        goRhs recA syms tree depths nprod pcA rng = some (t', d', np', pcA', rng') ∧
        goRhs recB syms tree depths nprod pcB rng = some (t', d', np', pcB', rng') ∧
        pcEquiv pcA' pcB' := by
  intro syms
  induction syms with
  | nil =>
    intro tree depths nprod pcA pcB rng h
    right
    exact ⟨tree, depths, nprod, pcA, pcB, rng, rfl, rfl, h⟩
  | cons s rest ih =>
    cases s with
    | tm t0 =>
      intro tree depths nprod pcA pcB rng h
      simp only [goRhs]
      exact ih _ _ _ _ _ _ h
    | nt s0 =>
      intro tree depths nprod pcA pcB rng h
      rcases hrec s0 pcA pcB rng h with ⟨hA, hB⟩ |
        ⟨t0, d0, np0, pcA', pcB', rng', hA, hB, h'⟩
      · left
        constructor <;> simp [goRhs, hA, hB]
      · simp only [goRhs, hA, hB]
        exact ih _ _ _ _ _ _ h'

lemma convergentSampler_equiv (g : Grammar) (cf : ℚ) :
    ∀ (fuel : Nat) (sym : String) (pcA pcB : PCount) (rng : List ℚ),
      pcEquiv pcA pcB →
      (convergentSampler g cf fuel sym pcA rng = none ∧
        convergentSampler g cf fuel sym pcB rng = none) ∨
      ∃ t d np pcA' pcB' rng',
        convergentSampler g cf fuel sym pcA rng = some (t, d, np, pcA', rng') ∧
        convergentSampler g cf fuel sym pcB rng = some (t, d, np, pcB', rng') ∧
        pcEquiv pcA' pcB' := by
  intro fuel
  induction fuel with
  | zero =>
    intro sym pcA pcB rng h
    left
    constructor <;> simp [convergentSampler]
  | succ n ih =>
    intro sym pcA pcB rng h
    cases rng with
    | nil =>
      left
      constructor <;> simp [convergentSampler]
    | cons x rng₁ =>
      have hprobs : convergentProbs g sym pcA cf = convergentProbs g sym pcB cf :=
        convergentProbs_congr g sym cf h
      cases hc : choice (g.prodsFor sym) (some (convergentProbs g sym pcA cf)) x with
      | none =>
        have hcB : choice (g.prodsFor sym) (some (convergentProbs g sym pcB cf)) x
            = none := by rw [← hprobs]; exact hc
        left
        constructor <;> simp [convergentSampler, hc, hcB]
      | some production =>
        have hcB : choice (g.prodsFor sym) (some (convergentProbs g sym pcB cf)) x
            = some production := by rw [← hprobs]; exact hc
        rcases goRhs_equiv _ _ (fun s a b r hab => ih s a b r hab) production.rhs
          ('(' :: sym.data) [] 1 (pcIncr pcA production) (pcIncr pcB production)
          rng₁ (pcEquiv_incr h production) with ⟨hgA, hgB⟩ |
          ⟨t', d', np', pcA₂, pcB₂, rng₂, hgA, hgB, h₂⟩
        · left
          constructor <;> simp [convergentSampler, hc, hcB, hgA, hgB]
        · right
          refine ⟨t', (if d'.isEmpty then 1 else d'.foldl max 0 + 1), np',
            pcDecr pcA₂ production, pcDecr pcB₂ production, rng₂, ?_, ?_, ?_⟩
          · simp [convergentSampler, hc, hgA]
          · simp [convergentSampler, hcB, hgB]
          · intro q
            rw [usageCount_pcDecr, usageCount_pcDecr, h₂ q]

/-- C4. After a successful top-level convergent sampling call, every
production's usage count in the persistent `pcount` equals its pre-call
value; consequently a second call made from identical pseudo-random
generator state (and the carried-over `pcount`) produces the identical
output string (and consumes the stream identically). -/
theorem convergent_pcount_restored_and_deterministic (g : Grammar) (cf : ℚ)
    (fuel : Nat) (sym : String) (pc : PCount) (rng : List ℚ) (out : List Char)
    (pc' : PCount) (rng' : List ℚ)
    (h : convergentSamplerCall g cf fuel sym pc rng = some (out, pc', rng')) :
    (∀ q, usageCount pc' q = usageCount pc q) ∧
    ∃ pc'', convergentSamplerCall g cf fuel sym pc' rng = some (out, pc'', rng') := by
  cases hs : convergentSampler g cf fuel sym pc rng with
  | none => simp [convergentSamplerCall, hs] at h
  | some res =>
    obtain ⟨tree, d, np, pcr, rngr⟩ := res
    simp only [convergentSamplerCall, hs, Option.some.injEq, Prod.mk.injEq] at h
    obtain ⟨hout, hpc, hrng⟩ := h
    have hres : ∀ q, usageCount pcr q = usageCount pc q :=
      convergentSampler_usage g cf fuel sym pc rng _ _ _ _ _ hs
    have hrestore : ∀ q, usageCount pc' q = usageCount pc q := by
      intro q
      rw [← hpc]
      exact hres q
    refine ⟨hrestore, ?_⟩
    have hequiv : pcEquiv pc' pc := hrestore
    rcases convergentSampler_equiv g cf fuel sym pc' pc rng hequiv with ⟨hA, hB⟩ |
      ⟨t, d2, np2, pcA', pcB', rng2, hA, hB, _⟩
    · rw [hs] at hB
      exact absurd hB (by simp)
    · have hcomp := hs.symm.trans hB
      simp only [Option.some.injEq, Prod.mk.injEq] at hcomp
      obtain ⟨h1, -, -, -, h5⟩ := hcomp
      refine ⟨pcA', ?_⟩
      simp only [convergentSamplerCall, hA]
      rw [← h1, ← h5, hout, hrng]

/-- The one-production grammar `S -> 'a'` used as a concrete test input. -/
def aGrammar : Grammar := ⟨[⟨"S", [.tm "a"]⟩], []⟩

/-- Its single production. -/
def aProd : Production := ⟨"S", [.tm "a"]⟩

/-- Witness for C4 at a concrete input: one convergent sample of `S -> 'a'`
from an empty `pcount` and stream `[0]` yields `(S a)` and leaves the
production's count restored to 0; the follow-up call from the carried-over
state and the same stream yields the same string. -/
theorem convergent_pcount_restored_and_deterministic_witness :
    usageCount [(aProd, 0)] aProd = usageCount [] aProd ∧
    ∃ pc'' : PCount, convergentSamplerCall aGrammar 1 1 "S" [(aProd, 0)] [0] =
      some ("(S a)".toList, pc'', []) := by
  have heval : convergentSamplerCall aGrammar 1 1 "S" [] [0] =
      some ("(S a)".toList, [(aProd, 0)], []) := by
    norm_num [convergentSamplerCall, convergentSampler, convergentProbs,
      convergentWeights, Grammar.prodsFor, aGrammar, aProd, choice, choiceIdxGo,
      pyIndex, goRhs, pcIncr, pcDecr, List.lookup]
  have h := convergent_pcount_restored_and_deterministic aGrammar 1 1 "S" [] [0]
    "(S a)".toList [(aProd, 0)] [] heval
  exact ⟨h.1 aProd, h.2⟩

/-- Sum of a list divided elementwise. -/
lemma sum_map_div (l : List ℚ) (S : ℚ) :
    (l.map (fun w => w / S)).sum = l.sum / S := by
  induction l with
  | nil => simp
  | cons a t ih => simp [ih, add_div]

/-- C7. At every nonterminal node of convergent sampling, the selection
weight of each candidate production is `cfactor` raised to that
production's usage count on the current root-to-node path (1.0 when never
used, since `cfactor ^ 0 = 1`); the weights are normalized by their sum to
probabilities summing to 1; and the production drawn is the one whose
cumulative-probability interval contains the uniform draw — i.e. index `k`
is drawn exactly with probability `probs[k]`. -/
theorem convergent_weight_normalization_and_selection (g : Grammar)
    (sym : String) (pc : PCount) (cf : ℚ) (x : ℚ) (hcf : 0 < cf)
    (hne : g.prodsFor sym ≠ []) :
    (convergentWeights (g.prodsFor sym) pc cf =
      (g.prodsFor sym).map (fun p => cf ^ usageCount pc p)) ∧
    ((convergentProbs g sym pc cf).sum = 1) ∧
    (∀ k, k < (g.prodsFor sym).length →
      ((convergentProbs g sym pc cf).take k).sum ≤ x →
      x < ((convergentProbs g sym pc cf).take (k + 1)).sum →
      choice (g.prodsFor sym) (some (convergentProbs g sym pc cf)) x =
        (g.prodsFor sym).get? k) := by
  have hwpos : ∀ w ∈ convergentWeights (g.prodsFor sym) pc cf, 0 < w := by
    intro w hw
    rw [convergentWeights_eq] at hw
    obtain ⟨p, -, rfl⟩ := List.mem_map.mp hw
    exact zpow_pos hcf _
  have hwne : convergentWeights (g.prodsFor sym) pc cf ≠ [] := by
    rw [convergentWeights_eq]
    simpa using hne
  have hsum : 0 < (convergentWeights (g.prodsFor sym) pc cf).sum :=
    List.sum_pos _ hwpos hwne
  have hlenw : (convergentWeights (g.prodsFor sym) pc cf).length =
      (g.prodsFor sym).length := by
    rw [convergentWeights_eq, List.length_map]
  have hprobs : convergentProbs g sym pc cf =
      (convergentWeights (g.prodsFor sym) pc cf).map
        (fun w => w / (convergentWeights (g.prodsFor sym) pc cf).sum) := rfl
  have hpnn : ∀ p ∈ convergentProbs g sym pc cf, 0 ≤ p := by
    intro p hp
    rw [hprobs] at hp
    obtain ⟨w, hw, rfl⟩ := List.mem_map.mp hp
    exact le_of_lt (div_pos (hwpos w hw) hsum)
  refine ⟨convergentWeights_eq _ _ _, ?_, ?_⟩
  · rw [hprobs, sum_map_div, div_self (ne_of_gt hsum)]
  · intro k hk hlow hhigh
    exact choice_some_eq (g.prodsFor sym) (convergentProbs g sym pc cf) x hpnn k
      (by rw [hprobs, List.length_map, hlenw]; exact hk) hlow hhigh

/-- Witness for C7: at the start symbol of the arithmetic grammar with a
fresh `pcount` and `cfactor = 1/2`, both weights are `(1/2)^0 = 1`, the
probabilities are `[1/2, 1/2]` summing to 1, and draw `0` selects the
first production. -/
theorem convergent_weight_normalization_and_selection_witness :
    choice (arithGrammar.prodsFor "S")
        (some (convergentProbs arithGrammar "S" [] (1/2))) 0 =
      some ⟨"S", [.nt "S", .nt "ADD", .nt "T"]⟩ ∧
    (convergentProbs arithGrammar "S" [] (1/2)).sum = 1 := by
  have h := convergent_weight_normalization_and_selection arithGrammar "S" []
    (1/2) 0 (by norm_num) (by decide)
  have hlo : ((convergentProbs arithGrammar "S" [] (1/2)).take 0).sum ≤ 0 := by
    simp
  have hfilter : arithGrammar.prodsFor "S" =
      [⟨"S", [.nt "S", .nt "ADD", .nt "T"]⟩, ⟨"S", [.nt "T"]⟩] := by decide
  have hhi : (0 : ℚ) < ((convergentProbs arithGrammar "S" [] (1/2)).take 1).sum := by
    norm_num [convergentProbs, convergentWeights, hfilter, List.lookup]
  refine ⟨?_, h.2.1⟩
  rw [h.2.2 0 (by decide) hlo hhi]
  decide

/-! ## The depth-constrained sampler (cfg.py, `_depth_constrained_sampler`)

`depth_information` is a plain dict from nonterminal name to its current
open-recursion count along the path, mutated in place (incremented on
entry, decremented on exit); modelled as an association list threaded
through the recursion. -/

abbrev DepthInfo := List (String × Nat)

/-- The read `depth_information[lhs]` (0 when absent — the code only reads keys it
has inserted). -/
def diGet (d : DepthInfo) (s : String) : Nat := (List.lookup s d).getD 0

/-- The update `if lhs in depth_information: depth_information[lhs] += 1 else:
depth_information[lhs] = 1`. -/
def diIncr (d : DepthInfo) (s : String) : DepthInfo :=
  match d with
  | [] => [(s, 1)]
  | (k, v) :: rest => if k = s then (k, v + 1) :: rest else (k, v) :: diIncr rest s

/-- The update `depth_information[lhs] -= 1` on exit (the key is always present,
having been inserted on entry; a missing key would be a Python
`KeyError` and cannot occur). -/
def diDecr (d : DepthInfo) (s : String) : DepthInfo :=
  match d with
  | [] => []
  | (k, v) :: rest => if k = s then (k, v - 1) :: rest else (k, v) :: diDecr rest s

/-- The comprehension `[str(sym) for sym in production.rhs() if not isinstance(sym, str)]`:
the nonterminal names on a production's right-hand side. -/
def Production.rhsNonterminals (p : Production) : List String :=
  p.rhs.filterMap (fun sym => match sym with | .nt s => some s | .tm _ => none)

/-- The candidate productions of `_depth_constrained_sampler` after the
constraint check: when the nonterminal is constrained and its open count
(after the entry increment) exceeds its bound, exactly the productions
whose right-hand side recurses into that same nonterminal are removed;
otherwise all its productions. -/
def depthCandidates (g : Grammar) (sym : String) (cnt : Nat) : List Production :=
  match List.lookup sym g.depthConstraints with
  | some bound =>
    if bound < cnt then
      (g.prodsFor sym).filter (fun p => decide (¬ sym ∈ p.rhsNonterminals))
    else g.prodsFor sym
  | none => g.prodsFor sym

/-- The failure modes of the embedded samplers. -/
inductive SampleError where
  | noWord
  | outOfFuel
  | rngExhausted
  | indexError
deriving DecidableEq, Repr

/-- Right-hand-side processing of the depth-constrained sampler (same loop
shape as `goRhs`, without the depth/production-count bookkeeping). -/
def goRhsDepth
    (rec : String → DepthInfo → List ℚ → Except SampleError (List Char × DepthInfo × List ℚ)) :
    List GSym → List Char → DepthInfo → List ℚ →
    Except SampleError (List Char × DepthInfo × List ℚ)
  | [], tree, dinfo, rng => .ok (tree, dinfo, rng)
  | .tm t :: rest, tree, dinfo, rng =>
    goRhsDepth rec rest (tree ++ ' ' :: t.toList) dinfo rng
  | .nt s :: rest, tree, dinfo, rng =>
    match rec s dinfo rng with
    | .error e => .error e
    | .ok (sub, dinfo', rng') =>
      goRhsDepth rec rest (tree ++ ' ' :: (sub ++ [')'])) dinfo' rng'

/-- The method `Grammar._depth_constrained_sampler`: bump the entry count, filter the
candidate productions under the constraint, raise
`"There can be no word sampled!"` when none remain, else draw one
uniformly and expand its right-hand side; decrement the count on return.
Recursion bounded by `fuel` (the Python recursion is unbounded). -/
def depthConstrainedSampler (g : Grammar) :
    Nat → String → DepthInfo → List ℚ →
    Except SampleError (List Char × DepthInfo × List ℚ)
  | 0, _, _, _ => .error .outOfFuel
  | fuel + 1, sym, dinfo, rng =>
    let dinfo₁ := diIncr dinfo sym
    let prods := depthCandidates g sym (diGet dinfo₁ sym)
    if prods.length = 0 then .error .noWord
    else
      match rng with
      | [] => .error .rngExhausted
      | x :: rng₁ =>
        match choice prods none x with
        | none => .error .indexError
        | some production =>
          match goRhsDepth (depthConstrainedSampler g fuel) production.rhs
              ('(' :: sym.data) dinfo₁ rng₁ with
          | .error e => .error e
          | .ok (tree, dinfo₂, rng₂) => .ok (tree, diDecr dinfo₂ sym, rng₂)

/-- C5. On entering a nonterminal whose open-recursion count (after
the entry increment) exceeds its configured bound: (1) the candidate set
is exactly the nonterminal's productions minus those whose right-hand side
contains that same nonterminal; (2) if the exclusion leaves no candidates
the sampler raises (`"There can be no word sampled!"`) rather than
returning a derivation; (3) otherwise the production is drawn uniformly
among the remainder — index `k` is selected exactly when the draw falls in
`[k/n, (k+1)/n)`. -/
theorem depth_constrained_exclusion_and_failure (g : Grammar) (fuel : Nat)
    (sym : String) (dinfo : DepthInfo) (rng : List ℚ) (bound : Nat)
    (hb : List.lookup sym g.depthConstraints = some bound)
    (hover : bound < diGet (diIncr dinfo sym) sym) :
    (∀ p, p ∈ depthCandidates g sym (diGet (diIncr dinfo sym) sym) ↔
      (p ∈ g.prodsFor sym ∧ sym ∉ p.rhsNonterminals)) ∧
    (depthCandidates g sym (diGet (diIncr dinfo sym) sym) = [] →
      depthConstrainedSampler g (fuel + 1) sym dinfo rng = .error .noWord) ∧
    (∀ k x, k < (depthCandidates g sym (diGet (diIncr dinfo sym) sym)).length →
      (k : ℚ) / ((depthCandidates g sym (diGet (diIncr dinfo sym) sym)).length : ℚ) ≤ x →
      x < ((k : ℚ) + 1) / ((depthCandidates g sym (diGet (diIncr dinfo sym) sym)).length : ℚ) →
      choice (depthCandidates g sym (diGet (diIncr dinfo sym) sym)) none x =
        (depthCandidates g sym (diGet (diIncr dinfo sym) sym)).get? k) := by
  refine ⟨?_, ?_, ?_⟩
  · intro p
    simp [depthCandidates, hb, if_pos hover, List.mem_filter]
  · intro hempty
    simp [depthConstrainedSampler, hempty]
  · intro k x hk hlow hhigh
    exact choice_none_eq _ x k hk hlow hhigh

/-- The recursive grammar `S -> S | 'a'` with the depth constraint
`S ↦ 1`, used as a concrete test input. -/
def recGrammar : Grammar :=
  ⟨[⟨"S", [.nt "S"]⟩, ⟨"S", [.tm "a"]⟩], [("S", 1)]⟩

/-- Witness for C5: entering `S` with one occurrence already open exceeds
the bound 1; the recursive production `S -> S` is excluded and draw `0`
uniformly selects the surviving production `S -> 'a'`. -/
theorem depth_constrained_exclusion_and_failure_witness :
    choice (depthCandidates recGrammar "S" (diGet (diIncr [("S", 1)] "S") "S"))
        none 0 = some ⟨"S", [.tm "a"]⟩ := by
  have hcand : depthCandidates recGrammar "S" (diGet (diIncr [("S", 1)] "S") "S")
      = [⟨"S", [.tm "a"]⟩] := by decide
  have h := depth_constrained_exclusion_and_failure recGrammar 0 "S" [("S", 1)]
    [] 1 (by decide) (by decide)
  rw [h.2.2 0 0 (by rw [hcand]; decide) (by rw [hcand]; norm_num)
    (by rw [hcand]; norm_num)]
  rw [hcand]
  decide

end Neps
